import Mathlib

/-!
Verification development for the interactive pipeline-composer `pipr`
(sources: `src/main.rs`, `src/app/main_window.rs`, `src/pipr_config.rs`).
Strings are modelled as lists of characters; `usize` values as `Nat`.
Components whose source files are not part of the snapshot (the line
editor, the command list, the execution handler and the `App` struct)
are modelled from the specification; each such definition carries a
doc comment starting with `Modelled from the spec:`.
-/

/-- A line of text, as the list of its characters (Rust `String`). -/
abbrev Line := List Char

/-- Modelled from the spec: the `EditorBuffer` of the missing `lineeditor.rs`:
an ordered sequence of text lines (never empty - always at least one, possibly
empty, line) plus a cursor position (row index, column index). -/
structure EditorBuffer where
  lines : List Line
  cursor_row : Nat
  cursor_col : Nat
deriving DecidableEq

/-- The buffer invariant stated in the spec: row index < number of lines and
column index ≤ length of the line at the row index. -/
def currentLine (b : EditorBuffer) : Line :=
  b.lines.getD b.cursor_row []

/-- The spec's `EditorBuffer` invariant: `row index < number of lines;
column index ≤ length of the line at row index`. -/
def BufferInv (b : EditorBuffer) : Prop :=
  b.cursor_row < b.lines.length ∧ b.cursor_col ≤ (currentLine b).length

instance (b : EditorBuffer) : Decidable (BufferInv b) := by
  unfold BufferInv; infer_instance

/-- The discrete edit events of the spec's `apply_event`. -/
inductive EditorEvent where
  | insertChar (c : Char)
  | deleteBackward
  | deleteForward
  | moveLeft
  | moveRight
  | moveUp
  | moveDown
  | moveLineStart
  | moveLineEnd
  | clear
  | newline
deriving DecidableEq

/-- Modelled from the spec: `apply_event` of the missing `lineeditor.rs`.
Deleting at buffer start is a no-op; backspace at column 0 joins with the
previous line, removing the line break; delete-forward at line end joins
with the next line; clear resets to a single empty line with cursor (0,0);
newline splits the current line at the cursor. -/
def applyEvent (e : EditorEvent) (b : EditorBuffer) : EditorBuffer :=
  let row := b.cursor_row
  let col := b.cursor_col
  let cur := currentLine b
  match e with
  | .insertChar c =>
      { b with lines := b.lines.set row (cur.take col ++ c :: cur.drop col),
               cursor_col := col + 1 }
  | .deleteBackward =>
      if 0 < col then
        { b with lines := b.lines.set row (cur.take (col - 1) ++ cur.drop col),
                 cursor_col := col - 1 }
      else if 0 < row then
        let prevLine := b.lines.getD (row - 1) []
        { b with lines := b.lines.take (row - 1) ++ (prevLine ++ cur) :: b.lines.drop (row + 1),
                 cursor_row := row - 1, cursor_col := prevLine.length }
      else b
  | .deleteForward =>
      if col < cur.length then
        { b with lines := b.lines.set row (cur.take col ++ cur.drop (col + 1)) }
      else if row + 1 < b.lines.length then
        let nextLine := b.lines.getD (row + 1) []
        { b with lines := b.lines.take row ++ (cur ++ nextLine) :: b.lines.drop (row + 2) }
      else b
  | .moveLeft => { b with cursor_col := col - 1 }
  | .moveRight => if col < cur.length then { b with cursor_col := col + 1 } else b
  | .moveUp =>
      if 0 < row then
        { b with cursor_row := row - 1,
                 cursor_col := min col (b.lines.getD (row - 1) []).length }
      else b
  | .moveDown =>
      if row + 1 < b.lines.length then
        { b with cursor_row := row + 1,
                 cursor_col := min col (b.lines.getD (row + 1) []).length }
      else b
  | .moveLineStart => { b with cursor_col := 0 }
  | .moveLineEnd => { b with cursor_col := cur.length }
  | .clear => { lines := [[]], cursor_row := 0, cursor_col := 0 }
  | .newline =>
      { b with lines := b.lines.take row ++ cur.take col :: cur.drop col :: b.lines.drop (row + 1),
               cursor_row := row + 1, cursor_col := 0 }

/-- Joining a list of lines with a single space character
(Rust `lines.join(" ")`). -/
def joinLines : List Line → Line
  | [] => []
  | [l] => l
  | l :: l2 :: ls => l ++ ' ' :: joinLines (l2 :: ls)

/-- Modelled from the spec: `content_str` of the missing `lineeditor.rs`:
joins the lines with a single space; the default pipeline text handed to
the execution handler. -/
def contentStr (b : EditorBuffer) : Line :=
  joinLines b.lines

/-- Total size measure of a line list: sum of the line lengths plus the
number of lines.  For a non-empty list this is `(joinLines ls).length + 1`. -/
def totalLen (ls : List Line) : Nat :=
  (ls.map List.length).sum + ls.length

/-- Modelled from the spec: `insert_at_cursor` of the missing `lineeditor.rs`:
splices text at the cursor; if the inserted text contains line breaks, splits
the current line accordingly; the cursor advances to the end of the inserted
text.  Realised as folding the character/newline edit events over the text. -/
def insertAtCursor (t : Line) (b : EditorBuffer) : EditorBuffer :=
  t.foldl (fun st c =>
    if c = '\n' then applyEvent .newline st else applyEvent (.insertChar c) st) b

/-- Modelled from the spec: `hovered_char` of the missing `lineeditor.rs`:
the character immediately at the cursor column, or none if the cursor is
past the end of the line. -/
def hoveredChar (b : EditorBuffer) : Option Char :=
  (currentLine b).get? b.cursor_col

/-- Modelled from the spec: `word_at_idx` of the missing `lineeditor.rs`:
the maximal contiguous non-whitespace run of the line touching column `col`
(the spec's completion scenario has the cursor sitting just past the word,
so a run ending exactly at `col` is also returned); none when `col` is
strictly inside whitespace or out of bounds. -/
def wordAtIdx (line : Line) (col : Nat) : Option Line :=
  if col ≤ line.length then
    let pre := ((line.take col).reverse.takeWhile (fun c => c != ' ')).reverse
    let post := (line.drop col).takeWhile (fun c => c != ' ')
    let w := pre ++ post
    if w = [] then none else some w
  else none

/-- Fuel-indexed repeated removal of a leading pattern, the fuel bounding the
number of removals by the length of the subject string. -/
def trimAux : Nat → Line → Line → Line
  | 0, _, s => s
  | fuel + 1, pat, s =>
      if pat ≠ [] ∧ pat.isPrefixOf s then trimAux fuel pat (s.drop pat.length) else s

/-- Rust `str::trim_start_matches`: repeatedly removes every leading
occurrence of the pattern (not just the first one). -/
def trimStartMatches (pat s : Line) : Line :=
  trimAux s.length pat s

/-- Modelled from the spec's words (for comparison with the code): stripping
the original query from the candidate exactly once - `the remainder` after
removing the query as a leading pattern a single time. -/
def stripQueryOnceSpec (pat s : Line) : Line :=
  if pat.isPrefixOf s then s.drop pat.length else s

/-- `AutocompleteState` from `src/app/main_window.rs`: original query text,
candidate list and selected index. -/
structure AutocompleteState where
  original_prompt : Line
  options : List Line
  current_idx : Nat
deriving DecidableEq

/-- `AutocompleteState::from_options`: yields a state (selected index 0) only
when the candidate list is non-empty. -/
def AutocompleteState.from_options (original_prompt : Line) (options : List Line) :
    Option AutocompleteState :=
  if options.isEmpty then none
  else some { current_idx := 0, original_prompt := original_prompt, options := options }

/-- `AutocompleteState::cycle_selected`: advance the selected index modulo the
number of options. -/
def AutocompleteState.cycle_selected (ac : AutocompleteState) : AutocompleteState :=
  { ac with current_idx := (ac.current_idx + 1) % ac.options.length }

/-- `AutocompleteState::cycle_selected_backwards`: step the selected index
back, wrapping to the last option from 0. -/
def AutocompleteState.cycle_selected_backwards (ac : AutocompleteState) : AutocompleteState :=
  if ac.current_idx = 0 then { ac with current_idx := ac.options.length - 1 }
  else { ac with current_idx := ac.current_idx - 1 }

/-- `AutocompleteState::selected`: the candidate at the selected index (the
Rust code indexes the vector directly; the index is in range by
construction, an out-of-range index would panic). -/
def AutocompleteState.selected (ac : AutocompleteState) : Line :=
  ac.options.getD ac.current_idx []

/-- A history/bookmark entry: per the spec, an immutable snapshot of buffer
content as joined text. -/
abbrev CommandEntry := Line

/-- Modelled from the spec: the `CommandList` of the missing `commandlist.rs`:
an ordered sequence of entries with an optional maximum size. -/
structure CommandList where
  entries : List CommandEntry
  maxSize : Option Nat
deriving DecidableEq

/-- `CommandList` length query. -/
def CommandList.len (l : CommandList) : Nat :=
  l.entries.length

/-- Modelled from the spec: `CommandList::push` appends; if a maximum size is
configured and the length exceeds it, removes from the front until within
bound. -/
def CommandList.push (l : CommandList) (e : CommandEntry) : CommandList :=
  let es := l.entries ++ [e]
  match l.maxSize with
  | some cap => { l with entries := es.drop (es.length - cap) }
  | none => { l with entries := es }

/-- Modelled from the spec: `CommandList::get_at` returns the entry at the
index, or none when the index is out of range. -/
def CommandList.get_at (l : CommandList) (idx : Nat) : Option CommandEntry :=
  l.entries.get? idx

/-- Modelled from the spec: `CommandList::toggle_entry`: if an equal entry
exists, remove the first occurrence; otherwise append. -/
def CommandList.toggle_entry (l : CommandList) (e : CommandEntry) : CommandList :=
  if e ∈ l.entries then { l with entries := l.entries.erase e }
  else { l with entries := l.entries ++ [e] }

/-- A snippet from the configuration: text plus a declared cursor offset
(`snippets.rs` is not in the snapshot; the spec describes the table as
`char → text + cursor offset`). -/
structure Snippet where
  text : Line
  cursor_offset : Nat
deriving DecidableEq

/-- The tag of a key-select menu (`KeySelectMenuType` of the app module):
snippet insertion, or opening a hovered word in a viewer. -/
inductive KeySelectMenuType where
  | snippets
  | openWordIn (word : Line)
deriving DecidableEq

/-- The key-select menu: display options plus the tag identifying its
purpose. -/
structure KeySelectMenu where
  options : List (Char × Line)
  menu_type : KeySelectMenuType
deriving DecidableEq

/-- Modelled from the spec: a configured help viewer resolves a word to an
`open externally` command; resolution details are an external collaborator
concern, modelled as prepending the viewer's command template. -/
def resolveToCommand (tmpl word : Line) : Line :=
  tmpl ++ word

/-- The configuration values the session controller consumes (already
parsed, per the spec's config collaborator contract). -/
structure PiprConfig where
  snippets : List (Char × Snippet)
  help_viewers : List (Char × Line)
deriving DecidableEq

/-- Keyboard key codes (crossterm `KeyCode`), restricted to the keys the
main-window handler inspects. -/
inductive KeyCode where
  | tab
  | backTab
  | enter
  | esc
  | backspace
  | delete
  | up
  | down
  | left
  | right
  | home
  | endKey
  | f (n : Nat)
  | char (c : Char)
  | null
deriving DecidableEq

/-- Modelled from the spec: the `App` state owned by the session controller
(`app.rs` is not in the snapshot); execution requests handed to the
execution handler are recorded in `execRequests` in submission order. -/
structure App where
  input_state : EditorBuffer
  autocomplete_state : Option AutocompleteState
  opened_key_select_menu : Option KeySelectMenu
  autoeval_mode : Bool
  paranoid_history_mode : Bool
  history : CommandList
  bookmarks : CommandList
  history_idx : Option Nat
  should_jump_to_other_cmd : Option Line
  should_quit : Bool
  config : PiprConfig
  execRequests : List Line
deriving DecidableEq

/-- Modelled from the spec: `content_to_commandentry`: snapshot of the buffer
content as joined text. -/
def contentToCommandentry (b : EditorBuffer) : CommandEntry :=
  contentStr b

/-- Modelled from the spec: `load_commandentry`: loads an entry's text into
the buffer (cursor placement is unspecified by the spec; placed at the
start). -/
def loadCommandentry (e : CommandEntry) : EditorBuffer :=
  { lines := [e], cursor_row := 0, cursor_col := 0 }

/-- Modelled from the spec: `set_content`: replaces the buffer lines, cursor
at (0,0). -/
def setContent (ls : List Line) : EditorBuffer :=
  { lines := ls, cursor_row := 0, cursor_col := 0 }

/-- Modelled from the spec: `execute_content` asks the execution handler to
run the current buffer content; recorded as appending the pipeline text to
the submission list. -/
def executeContent (app : App) : App :=
  { app with execRequests := app.execRequests ++ [contentStr app.input_state] }

/-- Modelled from the spec: `set_should_quit` marks the session as finished. -/
def setShouldQuit (app : App) : App :=
  { app with should_quit := true }

/-- `App::handle_key_select_menu_event` (`src/app/main_window.rs:43`):
a snippet hit inserts the snippet text and moves the cursor column by the
snippet's declared offset; a viewer hit records the resolved command; a
miss does nothing. -/
def handleKeySelectMenuEvent (app : App) (menu : KeySelectMenu) (c : Char) : App :=
  match menu.menu_type with
  | .snippets =>
      match app.config.snippets.lookup c with
      | some sn =>
          let st := insertAtCursor sn.text app.input_state
          { app with input_state := { st with cursor_col := st.cursor_col + sn.cursor_offset } }
      | none => app
  | .openWordIn word =>
      match app.config.help_viewers.lookup c with
      | some viewer =>
          { app with should_jump_to_other_cmd := some (resolveToCommand viewer word) }
      | none => app

/-- Modelled from the spec: `convert_keyevent_to_editorevent` of the missing
`util.rs`: maps plain editing keys to editor events; keys carrying the
control modifier convert to nothing. -/
def convertKeyeventToEditorevent (code : KeyCode) (ctrl : Bool) : Option EditorEvent :=
  match code with
  | .char c => if ctrl then none else some (.insertChar c)
  | .backspace => some .deleteBackward
  | .delete => some .deleteForward
  | .left => some .moveLeft
  | .right => some .moveRight
  | .up => some .moveUp
  | .down => some .moveDown
  | .home => some .moveLineStart
  | .endKey => some .moveLineEnd
  | _ => none

/-- The fall-through arm of `handle_main_window_tui_event`
(`src/app/main_window.rs:151-160`): remember the previous joined content,
apply the editor event, and under autoeval mode execute the content when the
joined content changed. -/
def applyEditorFallback (app : App) (ev : EditorEvent) : App :=
  let previousContent := contentStr app.input_state
  let st := applyEvent ev app.input_state
  let app := { app with input_state := st }
  if app.autoeval_mode ∧ previousContent ≠ contentStr st then executeContent app else app

/-- The `_` arm of the main-window match: convert the key event and, when it
converts, run the fall-through editor handling. -/
def editorFallback (app : App) (code : KeyCode) (ctrl : Bool) : App :=
  match convertKeyeventToEditorevent code ctrl with
  | some ev => applyEditorFallback app ev
  | none => app

/-- `App::apply_history_prev` (`src/app/main_window.rs:164-176`).  The result
is `none` exactly when the Rust code would panic on an out-of-range
`get_at(..).unwrap()` (unreachable from the maintained states). -/
def applyHistoryPrev (app : App) : Option App :=
  match app.history_idx with
  | some idx =>
      if 0 < idx then
        match app.history.get_at (idx - 1) with
        | some e =>
            some { app with history_idx := some (idx - 1), input_state := loadCommandentry e }
        | none => none
      else some app
  | none =>
      if 0 < app.history.len then
        let newIdx := app.history.len - 1
        let h := app.history.push (contentToCommandentry app.input_state)
        match h.get_at newIdx with
        | some e =>
            some { app with history_idx := some newIdx, history := h,
                            input_state := loadCommandentry e }
        | none => none
      else some app

/-- `App::apply_history_next` (`src/app/main_window.rs:178-189`).  The Rust
guard is `new_idx < self.history.len() - 1` on `usize`; as in the source, a
state with a navigation index and an empty history is never reached (there
the Rust subtraction would underflow). -/
def applyHistoryNext (app : App) : Option App :=
  match app.history_idx with
  | some idx =>
      let newIdx := idx + 1
      if newIdx < app.history.len - 1 then
        match app.history.get_at newIdx with
        | some e =>
            some { app with history_idx := some newIdx, input_state := loadCommandentry e }
        | none => none
      else
        some { app with history_idx := none, input_state := setContent [[]] }
  | none => some app

/-- The `KeyCode::Tab` arm of the main match (`src/app/main_window.rs:99-117`):
when the cursor hovers no character or a space, look up the word touching
the cursor and ask for path completions (`complete` stands for the
filesystem-backed `provide_path_autocomplete`); a single match is inserted
directly with the query stripped, several matches open the autocomplete
overlay. -/
def tabComplete (complete : Line → Option (List Line)) (app : App) : App :=
  let st := app.input_state
  let hovered := hoveredChar st
  if hovered = none ∨ hovered = some ' ' then
    match wordAtIdx (currentLine st) st.cursor_col with
    | some w =>
        match complete w with
        | some cs =>
            if cs.length = 1 then
              let cv := trimStartMatches w (cs.getD 0 [])
              let st' := insertAtCursor cv st
              { app with input_state := { st' with cursor_col := st'.cursor_col + cv.length } }
            else if 1 < cs.length then
              { app with autocomplete_state := AutocompleteState.from_options w cs }
            else app
        | none => app
    | none => app
  else app

/-- The `KeyCode::F(5)` arm (`src/app/main_window.rs:119-128`): open the
word-in-viewer key-select menu for the hovered word. -/
def openWordMenu (app : App) : App :=
  match wordAtIdx (currentLine app.input_state) app.input_state.cursor_col with
  | some w =>
      let menu : KeySelectMenu :=
        { options := app.config.help_viewers.map (fun p => (p.1, resolveToCommand p.2 w)),
          menu_type := .openWordIn w }
      { app with opened_key_select_menu := some menu }
  | none => app

/-- The `Ctrl-v` arm (`src/app/main_window.rs:138-143`): open the snippets
key-select menu. -/
def openSnippetsMenu (app : App) : App :=
  let menu : KeySelectMenu :=
    { options := app.config.snippets.map (fun p => (p.1, p.2.text)),
      menu_type := .snippets }
  { app with opened_key_select_menu := some menu }

/-- The `KeyCode::Enter` arm (`src/app/main_window.rs:144-149`): push the
buffer content to history when non-empty, then always execute it. -/
def enterAction (app : App) : App :=
  let app :=
    if contentStr app.input_state ≠ [] then
      { app with history := app.history.push (contentToCommandentry app.input_state) }
    else app
  executeContent app

/-- The `KeyCode::Enter` arm of the autocomplete overlay
(`src/app/main_window.rs:72-79`): strip the original query from the selected
candidate (Rust `trim_start_matches`), insert the rest at the cursor, advance
the cursor column by its length and close the overlay. -/
def acceptAutocomplete (app : App) (ac : AutocompleteState) : App :=
  let completedValue := trimStartMatches ac.original_prompt ac.selected
  let st := insertAtCursor completedValue app.input_state
  { app with input_state := { st with cursor_col := st.cursor_col + completedValue.length },
             autocomplete_state := none }

/-- The main `match code` of `handle_main_window_tui_event`
(`src/app/main_window.rs:93-161`), reached when no overlay intercepted the
key.  Arms guarded by `if control_pressed` fall through to the editor-event
conversion when the guard fails, as in the Rust match. -/
def mainMatch (complete : Line → Option (List Line)) (app : App) (code : KeyCode)
    (ctrl : Bool) : Option App :=
  match code with
  | .esc => some (setShouldQuit app)
  | .char 'q' => some (if ctrl then setShouldQuit app else editorFallback app (.char 'q') ctrl)
  | .char 'c' => some (if ctrl then setShouldQuit app else editorFallback app (.char 'c') ctrl)
  | .f 2 => some { app with autoeval_mode := !app.autoeval_mode }
  | .f 3 => some { app with paranoid_history_mode := !app.paranoid_history_mode }
  | .tab => some (tabComplete complete app)
  | .f 5 => some (openWordMenu app)
  | .char 's' =>
      some (if ctrl then
              { app with bookmarks := app.bookmarks.toggle_entry (contentToCommandentry app.input_state) }
            else editorFallback app (.char 's') ctrl)
  | .char 'p' => if ctrl then applyHistoryPrev app else some (editorFallback app (.char 'p') ctrl)
  | .char 'n' => if ctrl then applyHistoryNext app else some (editorFallback app (.char 'n') ctrl)
  | .char 'x' =>
      some (if ctrl then
              { app with history := app.history.push (contentToCommandentry app.input_state),
                         input_state := applyEvent .clear app.input_state }
            else editorFallback app (.char 'x') ctrl)
  | .char 'v' => some (if ctrl then openSnippetsMenu app else editorFallback app (.char 'v') ctrl)
  | .enter => some (enterAction app)
  | other => some (editorFallback app other ctrl)

/-- The key-select-menu interception (`src/app/main_window.rs:86-91`): the
menu is taken out of the state unconditionally; a character key is handed to
the menu handler; any key ends the interception. -/
def mainWindowRest (complete : Line → Option (List Line)) (app : App) (code : KeyCode)
    (ctrl : Bool) : Option App :=
  match app.opened_key_select_menu with
  | some menu =>
      let app := { app with opened_key_select_menu := none }
      match code with
      | .char c => some (handleKeySelectMenuEvent app menu c)
      | _ => some app
  | none => mainMatch complete app code ctrl

/-- `App::handle_main_window_tui_event` (`src/app/main_window.rs:59-162`).
The autocomplete overlay intercepts cycling and acceptance keys; any other
key cancels the overlay and is then processed normally.  `complete` stands
for the filesystem-backed `provide_path_autocomplete`. -/
def handleMainWindowTuiEvent (complete : Line → Option (List Line)) (app : App)
    (code : KeyCode) (ctrl : Bool) : Option App :=
  match app.autocomplete_state with
  | some ac =>
      match code with
      | .tab => some { app with autocomplete_state := some ac.cycle_selected }
      | .down => some { app with autocomplete_state := some ac.cycle_selected }
      | .backTab => some { app with autocomplete_state := some ac.cycle_selected_backwards }
      | .up => some { app with autocomplete_state := some ac.cycle_selected_backwards }
      | .enter => some (acceptAutocomplete app ac)
      | _ => mainWindowRest complete { app with autocomplete_state := none } code ctrl
  | none => mainWindowRest complete app code ctrl

/-- Modelled from the spec: the events touching the execution handler of the
missing `command_evaluation.rs`: a `submit` of a new pipeline (requests are
identified by a monotonically increasing sequence number, the model of the
spec's result-discard design), the out-of-band completion of a spawned run,
and a non-blocking `poll_output` from the event loop (`run_app` in
`src/main.rs` performs one on every tick). -/
inductive HEvent where
  | submit
  | finish (seq : Nat)
  | poll
deriving DecidableEq

/-- Modelled from the spec: the handler bookkeeping: the sequence number of
the latest accepted submit, the unfinished spawned runs, the finished runs
not yet polled, the results surfaced to the UI in order, and the stale
results silently discarded. -/
structure HState where
  submitCount : Nat
  inFlight : List Nat
  completed : List Nat
  yielded : List Nat
  discarded : List Nat
deriving DecidableEq

/-- Modelled from the spec: `CommandExecutionHandler::start` produces an idle
handler with no request submitted. -/
def initHandler : HState :=
  { submitCount := 0, inFlight := [], completed := [], yielded := [], discarded := [] }

/-- Modelled from the spec: one handler transition.  `submit` records the
request as latest-wanted and spawns it; a completion moves a run from
in-flight to completed; `poll_output` surfaces a completed result only when
it corresponds to the latest submit and silently discards stale ones
(supersession). -/
def hstep (s : HState) : HEvent → HState
  | .submit =>
      { s with submitCount := s.submitCount + 1,
               inFlight := s.inFlight ++ [s.submitCount + 1] }
  | .finish n =>
      if n ∈ s.inFlight then
        { s with inFlight := s.inFlight.erase n, completed := s.completed ++ [n] }
      else s
  | .poll =>
      if s.submitCount ∈ s.completed then
        { s with completed := [],
                 yielded := s.yielded ++ [s.submitCount],
                 discarded := s.discarded ++ s.completed.filter (fun c => c ≠ s.submitCount) }
      else
        { s with completed := [], discarded := s.discarded ++ s.completed }

/-- Running a sequence of handler events from a state. -/
def hrun (s : HState) (es : List HEvent) : HState :=
  es.foldl hstep s

/-- The liveness bookkeeping invariant: the latest submitted request is
always still in flight, completed-but-unpolled, or already surfaced - it is
never discarded. -/
def latestTracked (s : HState) : Prop :=
  0 < s.submitCount →
    (s.submitCount ∈ s.inFlight ∨ s.submitCount ∈ s.completed ∨ s.submitCount ∈ s.yielded)

/-- The execution modes of `src/main.rs`. -/
inductive ExecutionMode where
  | UNSAFE
  | ISOLATED
deriving DecidableEq

/-- The startup prefix of `main` (`src/main.rs:55-68`): the execution mode is
ISOLATED unless `--no-isolation` was given; when the sandbox tool `bwrap` is
unavailable and the mode is not UNSAFE the process prints a diagnostic and
exits with status 1 (modelled as `Except.error 1`) - before
`CommandExecutionHandler::start` runs; otherwise the handler is created. -/
def mainStartup (unsafeMode bubblewrapAvailable : Bool) : Except Nat (ExecutionMode × HState) :=
  let executionMode := if unsafeMode then ExecutionMode.UNSAFE else ExecutionMode.ISOLATED
  if ¬ bubblewrapAvailable ∧ executionMode ≠ ExecutionMode.UNSAFE then
    Except.error 1
  else
    Except.ok (executionMode, initHandler)

/-- An empty configuration for concrete states. -/
def emptyConfig : PiprConfig :=
  { snippets := [], help_viewers := [] }

/-- A minimal app state used by the concrete witnesses: a single empty line,
no overlays, empty uncapped lists. -/
def baseApp : App :=
  { input_state := { lines := [[]], cursor_row := 0, cursor_col := 0 },
    autocomplete_state := none,
    opened_key_select_menu := none,
    autoeval_mode := false,
    paranoid_history_mode := false,
    history := { entries := [], maxSize := none },
    bookmarks := { entries := [], maxSize := none },
    history_idx := none,
    should_jump_to_other_cmd := none,
    should_quit := false,
    config := emptyConfig,
    execRequests := [] }

/-- A completion oracle that never completes (stands for a filesystem with no
matching entries). -/
def noComplete : Line → Option (List Line) := fun _ => none

/-- A completion oracle for the spec's scenario: the word `/tm` completes to
the single path `/tmp` (directory `/tmp` exists). -/
def tmOracle : Line → Option (List Line) :=
  fun w => if w = ['/', 't', 'm'] then some [['/', 't', 'm', 'p']] else none

/-- The spec scenario's buffer: content `ls /tm`, cursor at the end. -/
def lsTmBuffer : EditorBuffer :=
  { lines := [['l', 's', ' ', '/', 't', 'm']], cursor_row := 0, cursor_col := 6 }

/-- Concrete state for the C2 witness: autoeval mode on. -/
def c2App : App :=
  { baseApp with autoeval_mode := true }

/-- Concrete state for the C3 counterexample: an open snippets menu and a
configured snippet `ab` whose declared cursor offset 5 exceeds the inserted
text. -/
def c3App : App :=
  { baseApp with
      opened_key_select_menu := some { options := [], menu_type := .snippets },
      config := { snippets := [('a', { text := ['a', 'b'], cursor_offset := 5 })],
                  help_viewers := [] } }

/-- Concrete state for the C4 witness: history entries `a`, `b`, `c` with the
navigation index at 0. -/
def c4App : App :=
  { baseApp with
      history := { entries := [['a'], ['b'], ['c']], maxSize := none },
      history_idx := some 0 }

/-- Concrete state for the C5 counterexample: a history at its configured
cap (one entry `a`, cap 1) and a live buffer holding `x`. -/
def c5App : App :=
  { baseApp with
      history := { entries := [['a']], maxSize := some 1 },
      input_state := { lines := [['x']], cursor_row := 0, cursor_col := 1 } }

/-- Concrete state for the C5 witness: a history `a`, `b` capped at 10 (as
in the program, the history list always carries a configured cap) and a
live buffer holding `x`. -/
def c5WitnessApp : App :=
  { baseApp with
      history := { entries := [['a'], ['b']], maxSize := some 10 },
      input_state := { lines := [['x']], cursor_row := 0, cursor_col := 1 } }

/-- Concrete state for the C6 counterexample: buffer `aa` with the cursor at
the end, and an autocomplete overlay whose query `aa` selected candidate is
`aaaa` (the candidate starts with two copies of the query). -/
def c6App : App :=
  { baseApp with
      input_state := { lines := [['a', 'a']], cursor_row := 0, cursor_col := 2 },
      autocomplete_state := some { original_prompt := ['a', 'a'],
                                   options := [['a', 'a', 'a', 'a']], current_idx := 0 } }

/-- Concrete state for the C6 acceptance scenario: buffer `ls /tm`, overlay
with query `/tm` and single candidate `/tmp`. -/
def c6EnterApp : App :=
  { baseApp with
      input_state := lsTmBuffer,
      autocomplete_state := some { original_prompt := ['/', 't', 'm'],
                                   options := [['/', 't', 'm', 'p']], current_idx := 0 } }

/-- Concrete state for the C6 tab scenario: buffer `ls /tm`, no overlay. -/
def c6TabApp : App :=
  { baseApp with input_state := lsTmBuffer }

/-- Concrete autocomplete overlay for the C7 witness. -/
def c7Ac : AutocompleteState :=
  { original_prompt := ['q'], options := [['a'], ['b'], ['c']], current_idx := 1 }

/-- Concrete state for the C9 witness: an open snippets menu with snippet
`hi` mapped to `a`. -/
def c9App : App :=
  { baseApp with
      opened_key_select_menu := some { options := [], menu_type := .snippets },
      config := { snippets := [('a', { text := ['h', 'i'], cursor_offset := 2 })],
                  help_viewers := [] } }

/-- Concrete state for the C10 witness: buffer holding `e`. -/
def c10App : App :=
  { baseApp with input_state := { lines := [['e']], cursor_row := 0, cursor_col := 1 } }

theorem getD_cons_succ' {α : Type} (a : α) (t : List α) (i : Nat) (d : α) :
    (a :: t).getD (i + 1) d = t.getD i d := rfl

theorem drop_decomp {α : Type} (d : α) :
    ∀ (l : List α) (i : Nat), i < l.length → l.drop i = l.getD i d :: l.drop (i + 1) := by
  intro l
  induction l with
  | nil => intro i h; simp at h
  | cons a t ih =>
    intro i h
    cases i with
    | zero => simp
    | succ i =>
      have := ih i (by simpa using h)
      simpa [List.getD_cons_succ] using this

theorem list_decomp {α : Type} (d : α) (l : List α) (i : Nat) (h : i < l.length) :
    l = l.take i ++ l.getD i d :: l.drop (i + 1) := by
  conv_lhs => rw [← List.take_append_drop i l]
  rw [drop_decomp d l i h]

theorem set_decomp {α : Type} :
    ∀ (l : List α) (i : Nat) (a : α), i < l.length → l.set i a = l.take i ++ a :: l.drop (i + 1) := by
  intro l
  induction l with
  | nil => intro i a h; simp at h
  | cons x t ih =>
    intro i a h
    cases i with
    | zero => simp
    | succ i =>
      have := ih i a (by simpa using h)
      simpa using this

theorem getD_set_self {α : Type} (d : α) :
    ∀ (l : List α) (i : Nat) (a : α), i < l.length → (l.set i a).getD i d = a := by
  intro l
  induction l with
  | nil => intro i a h; simp at h
  | cons x t ih =>
    intro i a h
    cases i with
    | zero => simp
    | succ i => simpa using ih i a (by simpa using h)

theorem getD_set_ne {α : Type} (d : α) :
    ∀ (l : List α) (i j : Nat) (a : α), i ≠ j → (l.set i a).getD j d = l.getD j d := by
  intro l
  induction l with
  | nil => intro i j a _; simp
  | cons x t ih =>
    intro i j a hij
    cases i with
    | zero =>
      cases j with
      | zero => exact absurd rfl hij
      | succ j => simp
    | succ i =>
      cases j with
      | zero => simp
      | succ j => simpa using ih i j a (by omega)

theorem getD_append_self {α : Type} (d : α) :
    ∀ (A : List α) (x : α) (B : List α), (A ++ x :: B).getD A.length d = x := by
  intro A
  induction A with
  | nil => intro x B; simp
  | cons a A ih => intro x B; simpa using ih x B

theorem getD_append_self_succ {α : Type} (d : α) :
    ∀ (A : List α) (x y : α) (B : List α), (A ++ x :: y :: B).getD (A.length + 1) d = y := by
  intro A
  induction A with
  | nil => intro x y B; simp
  | cons a A ih =>
    intro x y B
    have h : (a :: A).length + 1 = (A.length + 1) + 1 := by simp [Nat.add_comm]
    rw [h]
    simpa using ih x y B

theorem totalLen_nil : totalLen [] = 0 := rfl

theorem totalLen_cons (l : Line) (ls : List Line) :
    totalLen (l :: ls) = l.length + 1 + totalLen ls := by
  simp [totalLen]; omega

theorem totalLen_append (A B : List Line) :
    totalLen (A ++ B) = totalLen A + totalLen B := by
  simp [totalLen]; omega

theorem length_le_totalLen (ls : List Line) : ls.length ≤ totalLen ls := by
  simp [totalLen]

theorem joinLen : ∀ (ls : List Line), ls ≠ [] → (joinLines ls).length + 1 = totalLen ls
  | [], h => absurd rfl h
  | [l], _ => by simp [joinLines, totalLen]
  | l :: l2 :: ls, _ => by
      have ih := joinLen (l2 :: ls) (by simp)
      rw [totalLen_cons]
      simp only [joinLines, List.length_append, List.length_cons]
      omega

theorem totalLen_ge_two (ls : List Line) (h0 : ls ≠ []) (h1 : ls ≠ [[]]) :
    2 ≤ totalLen ls := by
  match ls with
  | [] => exact absurd rfl h0
  | [l] =>
      have : l ≠ [] := fun he => h1 (by rw [he])
      have : 1 ≤ l.length := by
        cases l with
        | nil => exact absurd rfl this
        | cons c t => simp
      rw [totalLen_cons]; omega
  | l :: l2 :: rest =>
      have := length_le_totalLen (l :: l2 :: rest)
      simp at this
      omega

theorem joinLines_ne_of_totalLen_ne (A B : List Line) (hA : A ≠ []) (hB : B ≠ [])
    (h : totalLen A ≠ totalLen B) : joinLines A ≠ joinLines B := by
  intro he
  apply h
  have h1 := joinLen A hA
  have h2 := joinLen B hB
  rw [← h1, ← h2, he]

theorem lines_nonempty (b : EditorBuffer) (h : BufferInv b) : b.lines ≠ [] := by
  intro he
  have := h.1
  rw [he] at this
  simp at this


theorem getD_append_mid {α : Type} (d : α) (A : List α) (x : α) (B : List α) (i : Nat)
    (h : i = A.length) : (A ++ x :: B).getD i d = x := by
  rw [h]; exact getD_append_self d A x B

theorem getD_append_mid_succ {α : Type} (d : α) (A : List α) (x y : α) (B : List α) (i : Nat)
    (h : i = A.length + 1) : (A ++ x :: y :: B).getD i d = y := by
  rw [h]; exact getD_append_self_succ d A x y B

theorem applyEvent_inv (e : EditorEvent) (b : EditorBuffer) (h : BufferInv b) :
    BufferInv (applyEvent e b) := by
  obtain ⟨hrow, hcol⟩ := h
  simp only [currentLine] at hcol
  cases e with
  | insertChar c =>
      refine ⟨?_, ?_⟩ <;> simp only [applyEvent, BufferInv, currentLine, List.length_set]
      · exact hrow
      · rw [getD_set_self [] _ _ _ hrow]
        simp only [List.length_append, List.length_take, List.length_cons, List.length_drop]
        omega
  | deleteBackward =>
      simp only [applyEvent]
      split
      · refine ⟨?_, ?_⟩ <;> simp only [BufferInv, currentLine, List.length_set]
        · exact hrow
        · rw [getD_set_self [] _ _ _ hrow]
          simp only [List.length_append, List.length_take, List.length_drop]
          omega
      · split
        · rename_i hcpos hrpos
          have htk : (b.lines.take (b.cursor_row - 1)).length = b.cursor_row - 1 := by
            simp only [List.length_take]; omega
          refine ⟨?_, ?_⟩ <;> simp only [BufferInv, currentLine]
          · simp only [List.length_append, List.length_take, List.length_cons,
              List.length_drop]
            omega
          · rw [getD_append_mid [] _ _ _ _ htk.symm]
            simp only [List.length_append]
            omega
        · exact ⟨hrow, by simpa only [currentLine] using hcol⟩
  | deleteForward =>
      simp only [applyEvent]
      split
      · rename_i hlt
        simp only [currentLine] at hlt
        refine ⟨?_, ?_⟩ <;> simp only [BufferInv, currentLine, List.length_set]
        · exact hrow
        · rw [getD_set_self [] _ _ _ hrow]
          simp only [List.length_append, List.length_take, List.length_drop]
          omega
      · split
        · rename_i hge hnext
          simp only [currentLine] at hge
          have htk : (b.lines.take b.cursor_row).length = b.cursor_row := by
            simp only [List.length_take]; omega
          refine ⟨?_, ?_⟩ <;> simp only [BufferInv, currentLine]
          · simp only [List.length_append, List.length_take, List.length_cons,
              List.length_drop]
            omega
          · rw [getD_append_mid [] _ _ _ _ htk.symm]
            simp only [List.length_append]
            omega
        · exact ⟨hrow, by simpa only [currentLine] using hcol⟩
  | moveLeft =>
      refine ⟨?_, ?_⟩ <;> simp only [applyEvent, BufferInv, currentLine]
      · exact hrow
      · omega
  | moveRight =>
      simp only [applyEvent]
      split
      · rename_i hlt
        simp only [currentLine] at hlt
        refine ⟨?_, ?_⟩ <;> simp only [BufferInv, currentLine]
        · exact hrow
        · omega
      · exact ⟨hrow, by simpa only [currentLine] using hcol⟩
  | moveUp =>
      simp only [applyEvent]
      split
      · refine ⟨?_, ?_⟩ <;> simp only [BufferInv, currentLine]
        · omega
        · exact Nat.min_le_right _ _
      · exact ⟨hrow, by simpa only [currentLine] using hcol⟩
  | moveDown =>
      simp only [applyEvent]
      split
      · rename_i hlt
        refine ⟨?_, ?_⟩ <;> simp only [BufferInv, currentLine]
        · omega
        · exact Nat.min_le_right _ _
      · exact ⟨hrow, by simpa only [currentLine] using hcol⟩
  | moveLineStart =>
      refine ⟨?_, ?_⟩ <;> simp only [applyEvent, BufferInv, currentLine]
      · exact hrow
      · omega
  | moveLineEnd =>
      refine ⟨?_, ?_⟩ <;> simp only [applyEvent, BufferInv, currentLine]
      · exact hrow
      · omega
  | clear =>
      refine ⟨?_, ?_⟩ <;> simp [applyEvent, BufferInv, currentLine]
  | newline =>
      have htk : (b.lines.take b.cursor_row).length = b.cursor_row := by
        simp only [List.length_take]; omega
      refine ⟨?_, ?_⟩ <;> simp only [applyEvent, BufferInv, currentLine]
      · simp only [List.length_append, List.length_take, List.length_cons, List.length_drop]
        omega
      · rw [getD_append_mid_succ [] _ _ _ _ _ (by omega)]
        omega

theorem applyEvent_lines_or_len (e : EditorEvent) (b : EditorBuffer) (h : BufferInv b) :
    (applyEvent e b).lines = b.lines ∨
      totalLen (applyEvent e b).lines ≠ totalLen b.lines := by
  obtain ⟨hrow, hcol⟩ := h
  simp only [currentLine] at hcol
  cases e with
  | insertChar c =>
      right
      simp only [applyEvent, currentLine]
      rw [set_decomp _ _ _ hrow]
      conv_rhs => rw [list_decomp [] b.lines b.cursor_row hrow]
      simp only [totalLen_append, totalLen_cons, List.length_append, List.length_take,
        List.length_cons, List.length_drop]
      omega
  | deleteBackward =>
      simp only [applyEvent]
      split
      · right
        simp only [currentLine]
        rw [set_decomp _ _ _ hrow]
        conv_rhs => rw [list_decomp [] b.lines b.cursor_row hrow]
        simp only [totalLen_append, totalLen_cons, List.length_append, List.length_take,
          List.length_drop]
        omega
      · split
        · rename_i hcpos hrpos
          right
          simp only [currentLine]
          have hlt : b.cursor_row - 1 < b.lines.length := by omega
          conv_rhs => rw [list_decomp [] b.lines (b.cursor_row - 1) hlt]
          have hr1 : b.cursor_row - 1 + 1 = b.cursor_row := by omega
          rw [hr1, drop_decomp [] b.lines b.cursor_row hrow]
          simp only [totalLen_append, totalLen_cons, List.length_append, List.length_take,
            List.length_drop]
          omega
        · left; rfl
  | deleteForward =>
      simp only [applyEvent]
      split
      · rename_i hlt
        simp only [currentLine] at hlt
        right
        simp only [currentLine]
        rw [set_decomp _ _ _ hrow]
        conv_rhs => rw [list_decomp [] b.lines b.cursor_row hrow]
        simp only [totalLen_append, totalLen_cons, List.length_append, List.length_take,
          List.length_drop]
        omega
      · split
        · rename_i hge hnext
          right
          simp only [currentLine] at hge ⊢
          conv_rhs => rw [list_decomp [] b.lines b.cursor_row hrow]
          rw [drop_decomp [] b.lines (b.cursor_row + 1) hnext]
          have h12 : b.cursor_row + 1 + 1 = b.cursor_row + 2 := by omega
          rw [h12]
          simp only [totalLen_append, totalLen_cons, List.length_append, List.length_take,
            List.length_drop]
          omega
        · left; rfl
  | moveLeft => left; rfl
  | moveRight =>
      simp only [applyEvent]
      split
      · left; rfl
      · left; rfl
  | moveUp =>
      simp only [applyEvent]
      split
      · left; rfl
      · left; rfl
  | moveDown =>
      simp only [applyEvent]
      split
      · left; rfl
      · left; rfl
  | moveLineStart => left; rfl
  | moveLineEnd => left; rfl
  | clear =>
      by_cases hb : b.lines = [[]]
      · left; simp [applyEvent, hb]
      · right
        simp only [applyEvent]
        have h2 := totalLen_ge_two b.lines (by intro he; rw [he] at hrow; simp at hrow) hb
        have h1 : totalLen [([] : Line)] = 1 := rfl
        omega
  | newline =>
      right
      simp only [applyEvent, currentLine]
      conv_rhs => rw [list_decomp [] b.lines b.cursor_row hrow]
      simp only [totalLen_append, totalLen_cons, List.length_append, List.length_take,
        List.length_drop]
      omega

theorem contentStr_ne_of_lines_ne (e : EditorEvent) (b : EditorBuffer) (h : BufferInv b)
    (hne : (applyEvent e b).lines ≠ b.lines) :
    contentStr (applyEvent e b) ≠ contentStr b := by
  have hd := applyEvent_lines_or_len e b h
  rcases hd with hd | hd
  · exact absurd hd hne
  · have h1 : b.lines ≠ [] := lines_nonempty b h
    have h2 : (applyEvent e b).lines ≠ [] := lines_nonempty _ (applyEvent_inv e b h)
    exact joinLines_ne_of_totalLen_ne _ _ h2 h1 hd

theorem contentStr_changed_iff (e : EditorEvent) (b : EditorBuffer) (h : BufferInv b) :
    contentStr (applyEvent e b) ≠ contentStr b ↔ (applyEvent e b).lines ≠ b.lines := by
  constructor
  · intro hne heq
    exact hne (by simp only [contentStr, heq])
  · exact contentStr_ne_of_lines_ne e b h

theorem take_len_plus {α : Type} : ∀ (A B : List α) (n : Nat),
    (A ++ B).take (A.length + n) = A ++ B.take n
  | [], B, n => by simp
  | a :: A, B, n => by
      have h : (a :: A).length + n = (A.length + n) + 1 := by simp; omega
      rw [h]
      simp only [List.cons_append, List.take_succ_cons]
      rw [take_len_plus A B n]

theorem drop_len_plus {α : Type} : ∀ (A B : List α) (n : Nat),
    (A ++ B).drop (A.length + n) = B.drop n
  | [], B, n => by simp
  | a :: A, B, n => by
      have h : (a :: A).length + n = (A.length + n) + 1 := by simp; omega
      rw [h]
      simp only [List.cons_append, List.drop_succ_cons]
      rw [drop_len_plus A B n]

theorem set_set' {α : Type} : ∀ (l : List α) (i : Nat) (a b : α),
    (l.set i a).set i b = l.set i b
  | [], _, _, _ => by simp
  | x :: t, 0, a, b => by simp
  | x :: t, i + 1, a, b => by simp [set_set' t i a b]

theorem set_getD_self {α : Type} (d : α) : ∀ (l : List α) (i : Nat),
    i < l.length → l.set i (l.getD i d) = l
  | [], i, h => by simp at h
  | x :: t, 0, _ => by simp
  | x :: t, i + 1, h => by
      simpa using set_getD_self d t i (by simpa using h)

theorem insertAtCursor_inv (t : Line) (b : EditorBuffer) (h : BufferInv b) :
    BufferInv (insertAtCursor t b) := by
  induction t generalizing b with
  | nil => exact h
  | cons c t ih =>
      have h1 : BufferInv (if c = '\n' then applyEvent .newline b
          else applyEvent (.insertChar c) b) := by
        split <;> exact applyEvent_inv _ b h
      show BufferInv (insertAtCursor t (if c = '\n' then applyEvent .newline b
        else applyEvent (.insertChar c) b))
      exact ih _ h1

theorem insertAtCursor_single : ∀ (t : Line) (b : EditorBuffer), BufferInv b → '\n' ∉ t →
    insertAtCursor t b =
      { lines := b.lines.set b.cursor_row
          ((currentLine b).take b.cursor_col ++ t ++ (currentLine b).drop b.cursor_col),
        cursor_row := b.cursor_row,
        cursor_col := b.cursor_col + t.length }
  | [], b, h, _ => by
      obtain ⟨hrow, hcol⟩ := h
      simp only [insertAtCursor, List.foldl_nil, List.append_nil, List.take_append_drop,
        List.length_nil, Nat.add_zero, currentLine]
      rw [set_getD_self [] b.lines b.cursor_row hrow]
  | c :: t, b, h, ht => by
      have hrow := h.1
      have hcol := h.2
      simp only [currentLine] at hcol
      have hc : ¬ (c = '\n') := fun he => ht (by rw [← he]; exact List.mem_cons_self c t)
      have ht' : '\n' ∉ t := fun hm => ht (List.mem_cons_of_mem c hm)
      have hstep : insertAtCursor (c :: t) b = insertAtCursor t (applyEvent (.insertChar c) b) := by
        simp only [insertAtCursor, List.foldl_cons, if_neg hc]
      rw [hstep, insertAtCursor_single t (applyEvent (.insertChar c) b) (applyEvent_inv _ b h) ht']
      simp only [applyEvent, currentLine]
      rw [getD_set_self [] b.lines b.cursor_row _ hrow]
      rw [set_set']
      have hA : ((b.lines.getD b.cursor_row []).take b.cursor_col).length = b.cursor_col := by
        simp only [List.length_take]; omega
      have htake : ((b.lines.getD b.cursor_row []).take b.cursor_col ++
          c :: (b.lines.getD b.cursor_row []).drop b.cursor_col).take (b.cursor_col + 1) =
          (b.lines.getD b.cursor_row []).take b.cursor_col ++ [c] := by
        have h1 := take_len_plus ((b.lines.getD b.cursor_row []).take b.cursor_col)
          (c :: (b.lines.getD b.cursor_row []).drop b.cursor_col) 1
        rw [hA] at h1
        simpa using h1
      have hdrop : ((b.lines.getD b.cursor_row []).take b.cursor_col ++
          c :: (b.lines.getD b.cursor_row []).drop b.cursor_col).drop (b.cursor_col + 1) =
          (b.lines.getD b.cursor_row []).drop b.cursor_col := by
        have h1 := drop_len_plus ((b.lines.getD b.cursor_row []).take b.cursor_col)
          (c :: (b.lines.getD b.cursor_row []).drop b.cursor_col) 1
        rw [hA] at h1
        simpa using h1
      rw [htake, hdrop]
      simp only [EditorBuffer.mk.injEq]
      refine ⟨?_, trivial, ?_⟩
      · congr 1
        simp [List.append_assoc]
      · simp [List.length_cons]
        omega

theorem trimStartMatches_single (pat s : Line) (h1 : pat.isPrefixOf s = true)
    (h2 : pat.isPrefixOf (s.drop pat.length) = false) :
    trimStartMatches pat s = s.drop pat.length := by
  have hpat : pat ≠ [] := by
    intro he
    rw [he] at h2
    simp [List.isPrefixOf] at h2
  have hs : s ≠ [] := by
    intro he
    rw [he] at h1
    match pat, hpat with
    | p :: ps, _ => simp [List.isPrefixOf] at h1
  obtain ⟨m, hm⟩ : ∃ m, s.length = m + 1 := by
    cases s with
    | nil => exact absurd rfl hs
    | cons a t => exact ⟨t.length, rfl⟩
  unfold trimStartMatches
  rw [hm]
  unfold trimAux
  rw [if_pos ⟨hpat, h1⟩]
  cases m with
  | zero => rfl
  | succ k =>
      unfold trimAux
      rw [if_neg]
      simp [h2]

theorem hrun_cons (s : HState) (e : HEvent) (es : List HEvent) :
    hrun s (e :: es) = hrun (hstep s e) es := rfl

theorem hrun_append (s : HState) (a b : List HEvent) :
    hrun s (a ++ b) = hrun (hrun s a) b := by
  simp [hrun, List.foldl_append]

theorem hstep_yielded (s : HState) (e : HEvent) :
    (hstep s e).yielded = s.yielded ∨ (hstep s e).yielded = s.yielded ++ [s.submitCount] := by
  cases e with
  | submit => left; rfl
  | finish n =>
      simp only [hstep]
      split
      · left; rfl
      · left; rfl
  | poll =>
      simp only [hstep]
      split
      · right; rfl
      · left; rfl

theorem hstep_count (s : HState) (e : HEvent) : s.submitCount ≤ (hstep s e).submitCount := by
  cases e with
  | submit => simp [hstep]
  | finish n =>
      simp only [hstep]
      split <;> simp
  | poll =>
      simp only [hstep]
      split <;> simp

theorem yields_mono (s : HState) (e : HEvent) : s.yielded ⊆ (hstep s e).yielded := by
  rcases hstep_yielded s e with h | h <;> rw [h]
  · exact fun x hx => hx
  · exact List.subset_append_left _ _

theorem yields_from (es : List HEvent) : ∀ (s : HState) (r : Nat),
    r ∈ (hrun s es).yielded → r ∈ s.yielded ∨ s.submitCount ≤ r := by
  induction es with
  | nil => intro s r h; left; exact h
  | cons e es ih =>
      intro s r h
      rw [hrun_cons] at h
      rcases ih (hstep s e) r h with h1 | h1
      · rcases hstep_yielded s e with h2 | h2
        · rw [h2] at h1; left; exact h1
        · rw [h2] at h1
          rcases List.mem_append.mp h1 with h3 | h3
          · left; exact h3
          · right
            have : r = s.submitCount := by simpa using h3
            omega
      · right; exact le_trans (hstep_count s e) h1

theorem latestTracked_step (s : HState) (e : HEvent) (h : latestTracked s) :
    latestTracked (hstep s e) := by
  cases e with
  | submit =>
      intro _
      left
      simp [hstep]
  | finish n =>
      simp only [latestTracked, hstep]
      split
      · rename_i hmem
        intro hpos
        simp only at hpos ⊢
        rcases h hpos with h1 | h1 | h1
        · by_cases hn : s.submitCount = n
          · right; left
            rw [hn]
            simp
          · left
            exact (List.mem_erase_of_ne hn).mpr h1
        · right; left
          exact List.mem_append_left _ h1
        · right; right
          exact h1
      · exact h
  | poll =>
      simp only [latestTracked, hstep]
      split
      · rename_i hmem
        intro hpos
        simp only at hpos ⊢
        rcases h hpos with h1 | h1 | h1
        · left; exact h1
        · right; right
          simp
        · right; right
          exact List.mem_append_left _ h1
      · rename_i hmem
        intro hpos
        simp only at hpos ⊢
        rcases h hpos with h1 | h1 | h1
        · left; exact h1
        · exact absurd h1 hmem
        · right; right
          exact h1

theorem latestTracked_run (es : List HEvent) : ∀ (s : HState),
    latestTracked s → latestTracked (hrun s es) := by
  induction es with
  | nil => intro s h; exact h
  | cons e es ih =>
      intro s h
      rw [hrun_cons]
      exact ih _ (latestTracked_step s e h)

theorem initHandler_tracked : latestTracked initHandler := by
  intro h
  simp [initHandler] at h

theorem poll_surfaces_latest (s : HState) (hmem : s.submitCount ∈ s.completed) :
    s.submitCount ∈ (hstep s .poll).yielded := by
  simp only [hstep]
  rw [if_pos hmem]
  simp

theorem finish_poll_surfaces (s : HState) (h : latestTracked s) (hpos : 0 < s.submitCount) :
    s.submitCount ∈ (hrun s [HEvent.finish s.submitCount, HEvent.poll]).yielded := by
  rw [hrun_cons, hrun_cons]
  show s.submitCount ∈ (hstep (hstep s (.finish s.submitCount)) .poll).yielded
  by_cases hin : s.submitCount ∈ s.inFlight
  · have h1 : hstep s (.finish s.submitCount) =
        { s with inFlight := s.inFlight.erase s.submitCount,
                 completed := s.completed ++ [s.submitCount] } := by
      simp only [hstep]
      rw [if_pos hin]
    rw [h1]
    exact poll_surfaces_latest _ (by simp)
  · have h1 : hstep s (.finish s.submitCount) = s := by
      simp only [hstep]
      rw [if_neg hin]
    rw [h1]
    rcases h hpos with h2 | h2 | h2
    · exact absurd h2 hin
    · exact poll_surfaces_latest s h2
    · exact yields_mono s .poll h2

theorem get_append_left {α : Type} :
    ∀ (A B : List α) (i : Nat), i < A.length → (A ++ B).get? i = A.get? i
  | [], _, i, h => by simp at h
  | x :: t, B, 0, _ => by simp
  | x :: t, B, i + 1, h => by
      simpa using get_append_left t B i (by simpa using h)

theorem get_eq_some_getD {α : Type} (d : α) :
    ∀ (l : List α) (i : Nat), i < l.length → l.get? i = some (l.getD i d)
  | [], i, h => by simp at h
  | x :: t, 0, _ => by simp
  | x :: t, i + 1, h => by
      simpa using get_eq_some_getD d t i (by simpa using h)

/-- C1: for any sequence of `submit` calls issued before previous ones
complete, `poll_output` eventually yields a result corresponding to the last
submit (after the latest run finishes, the next poll of the event loop
surfaces it), and once a later submit has been issued, a poll never yields a
result for any earlier submit: every result newly yielded after the later
submit carries the sequence number of a submit at least as recent. -/
theorem C1_supersession_and_eventual_latest (a b t : List HEvent) (i r : Nat)
    (hi : i < (hrun initHandler a).submitCount)
    (hr : r ∈ (hrun initHandler (a ++ b)).yielded)
    (hnew : r ∉ (hrun initHandler a).yielded)
    (ht : 0 < (hrun initHandler t).submitCount) :
    r ≠ i ∧
    (hrun initHandler t).submitCount ∈
      (hrun initHandler (t ++ [HEvent.finish (hrun initHandler t).submitCount,
        HEvent.poll])).yielded := by
  constructor
  · rw [hrun_append] at hr
    rcases yields_from b (hrun initHandler a) r hr with h1 | h1
    · exact absurd h1 hnew
    · omega
  · rw [hrun_append]
    exact finish_poll_surfaces (hrun initHandler t)
      (latestTracked_run t initHandler initHandler_tracked) ht

theorem C1_witness :
    (2 : Nat) ≠ 1 ∧
    (hrun initHandler [HEvent.submit]).submitCount ∈
      (hrun initHandler ([HEvent.submit] ++
        [HEvent.finish (hrun initHandler [HEvent.submit]).submitCount,
         HEvent.poll])).yielded :=
  C1_supersession_and_eventual_latest [HEvent.submit, HEvent.submit]
    [HEvent.finish 2, HEvent.poll] [HEvent.submit] 1 2
    (by decide) (by decide) (by decide) (by decide)

/-- C2: in autoeval mode, a dispatched editor event triggers a new execution
request exactly when it mutates the buffer content: the fall-through handler
submits the new joined content if and only if the event changed the line
list, and submits nothing when the buffer content is unchanged. -/
theorem C2_autoeval_triggers_iff_mutation (app : App) (ev : EditorEvent)
    (hinv : BufferInv app.input_state) (hauto : app.autoeval_mode = true) :
    (applyEditorFallback app ev).input_state = applyEvent ev app.input_state ∧
    (applyEditorFallback app ev).execRequests =
      (if (applyEvent ev app.input_state).lines = app.input_state.lines
       then app.execRequests
       else app.execRequests ++ [contentStr (applyEvent ev app.input_state)]) := by
  have hiff := contentStr_changed_iff ev app.input_state hinv
  have key : applyEditorFallback app ev =
      if contentStr app.input_state ≠ contentStr (applyEvent ev app.input_state)
      then executeContent { app with input_state := applyEvent ev app.input_state }
      else { app with input_state := applyEvent ev app.input_state } := by
    simp only [applyEditorFallback]
    simp [hauto]
  by_cases hl : (applyEvent ev app.input_state).lines = app.input_state.lines
  · have hceq : contentStr app.input_state = contentStr (applyEvent ev app.input_state) := by
      simp [contentStr, hl]
    rw [key, if_neg (fun hc => hc hceq), if_pos hl]
    exact ⟨rfl, rfl⟩
  · have hcne : contentStr app.input_state ≠ contentStr (applyEvent ev app.input_state) :=
      (hiff.mpr hl).symm
    rw [key, if_pos hcne, if_neg hl]
    exact ⟨rfl, rfl⟩

theorem C2_witness :
    (applyEditorFallback c2App (EditorEvent.insertChar 'a')).input_state =
      applyEvent (EditorEvent.insertChar 'a') c2App.input_state ∧
    (applyEditorFallback c2App (EditorEvent.insertChar 'a')).execRequests =
      (if (applyEvent (EditorEvent.insertChar 'a') c2App.input_state).lines =
          c2App.input_state.lines
       then c2App.execRequests
       else c2App.execRequests ++
         [contentStr (applyEvent (EditorEvent.insertChar 'a') c2App.input_state)]) :=
  C2_autoeval_triggers_iff_mutation c2App (EditorEvent.insertChar 'a') (by decide) (by decide)

/-- C8: if ISOLATED execution mode is selected (no `--no-isolation` flag) but
`bwrap` is unavailable, startup fails with exit status 1 - and only then -
before the execution handler is created; the exit status is always non-zero;
in UNSAFE mode the absence of the tool causes no failure and the handler is
created. -/
theorem C8_isolated_requires_bwrap (u a : Bool) :
    (mainStartup u a = Except.error 1 ↔ u = false ∧ a = false) ∧
    (∀ e, mainStartup u a = Except.error e → e ≠ 0) ∧
    (u = true → mainStartup u a = Except.ok (ExecutionMode.UNSAFE, initHandler)) := by
  cases u <;> cases a <;> refine ⟨?_, ?_, ?_⟩ <;> simp [mainStartup]

theorem C8_witness :
    mainStartup false false = Except.error 1 ∧
    mainStartup true false = Except.ok (ExecutionMode.UNSAFE, initHandler) :=
  ⟨(C8_isolated_requires_bwrap false false).1.mpr ⟨rfl, rfl⟩,
   (C8_isolated_requires_bwrap true false).2.2 rfl⟩

theorem cycleB_options (ac : AutocompleteState) :
    (ac.cycle_selected_backwards).options = ac.options := by
  simp only [AutocompleteState.cycle_selected_backwards]
  split <;> rfl

theorem cycleB_idx (ac : AutocompleteState) (h : ac.current_idx < ac.options.length) :
    (ac.cycle_selected_backwards).current_idx =
      (ac.current_idx + (ac.options.length - 1)) % ac.options.length := by
  simp only [AutocompleteState.cycle_selected_backwards]
  split
  · rename_i h0
    rw [h0, Nat.zero_add, Nat.mod_eq_of_lt (by omega)]
  · rename_i h0
    have he : ac.current_idx + (ac.options.length - 1) =
        (ac.current_idx - 1) + ac.options.length := by omega
    rw [he, Nat.add_mod_right, Nat.mod_eq_of_lt (by omega)]

theorem cycle_iterate (ac : AutocompleteState) (h : ac.current_idx < ac.options.length) :
    ∀ k, (AutocompleteState.cycle_selected^[k] ac).current_idx =
        (ac.current_idx + k) % ac.options.length ∧
      (AutocompleteState.cycle_selected^[k] ac).options = ac.options := by
  intro k
  induction k with
  | zero => simp [Nat.mod_eq_of_lt h]
  | succ k ih =>
      obtain ⟨hi, ho⟩ := ih
      rw [Function.iterate_succ_apply']
      constructor
      · simp only [AutocompleteState.cycle_selected]
        rw [hi, ho, Nat.mod_add_mod, Nat.add_assoc]
      · simp only [AutocompleteState.cycle_selected]
        exact ho

theorem cycleB_iterate (ac : AutocompleteState) (h : ac.current_idx < ac.options.length) :
    ∀ k, (AutocompleteState.cycle_selected_backwards^[k] ac).current_idx =
        (ac.current_idx + k * (ac.options.length - 1)) % ac.options.length ∧
      (AutocompleteState.cycle_selected_backwards^[k] ac).options = ac.options := by
  have hn : 0 < ac.options.length := by omega
  intro k
  induction k with
  | zero => simp [Nat.mod_eq_of_lt h]
  | succ k ih =>
      obtain ⟨hi, ho⟩ := ih
      rw [Function.iterate_succ_apply']
      have hlt : (AutocompleteState.cycle_selected_backwards^[k] ac).current_idx <
          (AutocompleteState.cycle_selected_backwards^[k] ac).options.length := by
        rw [hi, ho]
        exact Nat.mod_lt _ hn
      constructor
      · rw [cycleB_idx _ hlt, hi, ho, Nat.mod_add_mod]
        congr 1
        rw [Nat.succ_mul]
        omega
      · rw [cycleB_options]
        exact ho

/-- C7: for every autocomplete overlay (whose candidate list is non-empty by
construction via `from_options`) with its selected index in range, cycling
forward exactly `options.length` times returns the selected index to its
original value, and likewise cycling backwards; every single cycling step
keeps the selected index within `[0, options.length)`. -/
theorem C7_cycling_roundtrip (ac ac' : AutocompleteState) (w : Line) (cs : List Line)
    (h1 : ac.options ≠ []) (h2 : ac.current_idx < ac.options.length)
    (h3 : AutocompleteState.from_options w cs = some ac') :
    (AutocompleteState.cycle_selected^[ac.options.length] ac).current_idx = ac.current_idx ∧
    (AutocompleteState.cycle_selected_backwards^[ac.options.length] ac).current_idx =
      ac.current_idx ∧
    ac.cycle_selected.current_idx < ac.options.length ∧
    ac.cycle_selected_backwards.current_idx < ac.options.length ∧
    ac'.options ≠ [] ∧ ac'.current_idx < ac'.options.length := by
  have hn : 0 < ac.options.length := List.length_pos.mpr h1
  have hfrom : ac'.options = cs ∧ ac'.current_idx = 0 ∧ cs ≠ [] := by
    simp only [AutocompleteState.from_options] at h3
    split at h3
    · exact absurd h3 (by simp)
    · rename_i hne
      obtain rfl := Option.some.inj h3
      refine ⟨rfl, rfl, ?_⟩
      intro he
      rw [he] at hne
      simp at hne
  refine ⟨?_, ?_, ?_, ?_, ?_, ?_⟩
  · rw [(cycle_iterate ac h2 ac.options.length).1, Nat.add_mod_right, Nat.mod_eq_of_lt h2]
  · rw [(cycleB_iterate ac h2 ac.options.length).1, Nat.add_mul_mod_self_left,
      Nat.mod_eq_of_lt h2]
  · simp only [AutocompleteState.cycle_selected]
    exact Nat.mod_lt _ hn
  · rw [cycleB_idx ac h2]
    exact Nat.mod_lt _ hn
  · rw [hfrom.1]
    exact hfrom.2.2
  · rw [hfrom.2.1, hfrom.1]
    exact List.length_pos.mpr hfrom.2.2

theorem C7_witness :
    (AutocompleteState.cycle_selected^[c7Ac.options.length] c7Ac).current_idx =
      c7Ac.current_idx ∧
    (AutocompleteState.cycle_selected_backwards^[c7Ac.options.length] c7Ac).current_idx =
      c7Ac.current_idx ∧
    c7Ac.cycle_selected.current_idx < c7Ac.options.length ∧
    c7Ac.cycle_selected_backwards.current_idx < c7Ac.options.length ∧
    ({ original_prompt := ['q'], options := [['z']], current_idx := 0 } :
      AutocompleteState).options ≠ [] ∧
    ({ original_prompt := ['q'], options := [['z']], current_idx := 0 } :
      AutocompleteState).current_idx <
      ({ original_prompt := ['q'], options := [['z']], current_idx := 0 } :
        AutocompleteState).options.length :=
  C7_cycling_roundtrip c7Ac
    { original_prompt := ['q'], options := [['z']], current_idx := 0 } ['q'] [['z']]
    (by decide) (by decide) (by decide)

/-- C3 counterexample: with an empty one-line buffer, an open snippets menu
and a configured snippet `ab` with declared cursor offset 5, the single
keystroke `a` inserts the snippet and leaves the cursor at column 7 on a
line of length 2, violating the column invariant - the claim's assertion
that every buffer-mutating operation preserves the invariant and leaves the
cursor at the end of the inserted text fails at this input. -/
theorem C3_counterexample :
    handleMainWindowTuiEvent noComplete c3App (KeyCode.char 'a') false =
      some { c3App with
             opened_key_select_menu := none,
             input_state := { lines := [['a', 'b']], cursor_row := 0, cursor_col := 7 } } ∧
    ¬ BufferInv { lines := [['a', 'b']], cursor_row := 0, cursor_col := 7 } := by
  decide

/-- C3 (amended): every editor event preserves the buffer invariant, and
`insert_at_cursor` itself preserves the invariant and leaves the cursor
exactly at the end of the inserted (line-break-free) text, having spliced
the text at the prior cursor position; however, the autocomplete-acceptance
and snippet call sites advance `cursor_col` a second time themselves (by the
inserted length, resp. the snippet's declared offset), so after those
composite operations the cursor lies beyond the end of the inserted text and
the column invariant can be violated (see the counterexample). -/
theorem C3_amended_invariant_preservation (b : EditorBuffer) (e : EditorEvent) (t : Line)
    (h : BufferInv b) (ht : '\n' ∉ t) :
    BufferInv (applyEvent e b) ∧
    BufferInv (insertAtCursor t b) ∧
    (insertAtCursor t b).cursor_row = b.cursor_row ∧
    (insertAtCursor t b).cursor_col = b.cursor_col + t.length ∧
    currentLine (insertAtCursor t b) =
      (currentLine b).take b.cursor_col ++ t ++ (currentLine b).drop b.cursor_col := by
  have hs := insertAtCursor_single t b h ht
  refine ⟨applyEvent_inv e b h, insertAtCursor_inv t b h, ?_, ?_, ?_⟩
  · rw [hs]
  · rw [hs]
  · rw [hs]
    simp only [currentLine]
    exact getD_set_self [] b.lines b.cursor_row _ h.1

theorem C3_witness :
    BufferInv (applyEvent EditorEvent.deleteBackward lsTmBuffer) ∧
    BufferInv (insertAtCursor ['p'] lsTmBuffer) ∧
    (insertAtCursor ['p'] lsTmBuffer).cursor_row = lsTmBuffer.cursor_row ∧
    (insertAtCursor ['p'] lsTmBuffer).cursor_col = lsTmBuffer.cursor_col + (['p'] : Line).length ∧
    currentLine (insertAtCursor ['p'] lsTmBuffer) =
      (currentLine lsTmBuffer).take lsTmBuffer.cursor_col ++ ['p'] ++
        (currentLine lsTmBuffer).drop lsTmBuffer.cursor_col :=
  C3_amended_invariant_preservation lsTmBuffer EditorEvent.deleteBackward ['p']
    (by decide) (by decide)

/-- C4: with history navigation active at index `idx` (and the history
non-empty, as in every reachable navigating state), `apply_history_next`
increments the index and loads the entry there whenever the incremented
index still lies strictly before the trailing saved-buffer slot
(`new_idx < len - 1`); otherwise - once the increment moves past the last
such historical entry - it clears the navigation cursor and restores a
buffer of a single empty line. -/
theorem C4_history_next (app : App) (idx : Nat)
    (hidx : app.history_idx = some idx) (hlen : 1 ≤ app.history.len) :
    (idx + 1 < app.history.len - 1 →
      applyHistoryNext app = some { app with
                                    history_idx := some (idx + 1),
                                    input_state := loadCommandentry
                                      (app.history.entries.getD (idx + 1) []) }) ∧
    (¬ idx + 1 < app.history.len - 1 →
      applyHistoryNext app = some { app with
                                    history_idx := none,
                                    input_state := setContent [[]] }) := by
  constructor
  · intro hlt
    have hb : idx + 1 < app.history.entries.length := by
      simp only [CommandList.len] at hlt hlen
      omega
    have hget : app.history.get_at (idx + 1) =
        some (app.history.entries.getD (idx + 1) []) := by
      simp only [CommandList.get_at]
      exact get_eq_some_getD [] _ _ hb
    simp only [applyHistoryNext, hidx, hget]
    rw [if_pos hlt]
  · intro hge
    simp only [applyHistoryNext, hidx]
    rw [if_neg hge]

theorem C4_witness :
    applyHistoryNext c4App = some { c4App with
                                    history_idx := some 1,
                                    input_state := loadCommandentry
                                      (c4App.history.entries.getD 1 []) } :=
  (C4_history_next c4App 0 (by decide) (by decide)).1 (by decide)

/-- C5 counterexample: with a history at its configured cap (entries `[a]`,
cap 1) and live buffer `x`, the first `apply_history_prev` pushes the saved
buffer, which evicts `a`; the entry then loaded is the just-saved buffer `x`
itself, not the most recent historical entry `a` that preceded it - the
claim's description of the first navigation step fails at this input. -/
theorem C5_counterexample :
    applyHistoryPrev c5App = some { c5App with
                                    history_idx := some 0,
                                    history := { entries := [['x']], maxSize := some 1 },
                                    input_state := loadCommandentry ['x'] } ∧
    loadCommandentry ['x'] ≠ loadCommandentry ['a'] := by
  decide

/-- C5 (amended): provided pushing the saved buffer does not evict (history
uncapped, or below its cap), the first `apply_history_prev` of a navigation
(no index set, history non-empty) saves the current buffer content as a new
trailing entry and loads the most recent historical entry - the one
preceding the just-saved buffer; on subsequent calls it decrements the index
and loads the entry there, and when the index is already 0 the call is a
no-op, never an error.  At cap, eviction shifts the indices and the loaded
entry is the just-saved buffer itself (see the counterexample). -/
theorem C5_amended_history_prev (app : App) (idx : Nat) :
    (app.history_idx = none →
      (∀ cap, app.history.maxSize = some cap → app.history.len < cap) →
      0 < app.history.len →
      applyHistoryPrev app = some { app with
        history_idx := some (app.history.len - 1),
        history := app.history.push (contentToCommandentry app.input_state),
        input_state := loadCommandentry
          (app.history.entries.getD (app.history.len - 1) []) }) ∧
    (app.history_idx = some idx → 0 < idx → idx ≤ app.history.len →
      applyHistoryPrev app = some { app with
        history_idx := some (idx - 1),
        input_state := loadCommandentry (app.history.entries.getD (idx - 1) []) }) ∧
    (app.history_idx = some 0 → applyHistoryPrev app = some app) := by
  refine ⟨?_, ?_, ?_⟩
  · intro h1 h2 h3
    have hb : app.history.len - 1 < app.history.entries.length := by
      simp only [CommandList.len] at h3 ⊢
      omega
    have hpush : (app.history.push (contentToCommandentry app.input_state)).entries =
        app.history.entries ++ [contentToCommandentry app.input_state] := by
      simp only [CommandList.push]
      cases hm : app.history.maxSize with
      | none => rfl
      | some cap =>
          have hlt := h2 cap hm
          simp only [CommandList.len] at hlt
          have hz : (app.history.entries ++
              [contentToCommandentry app.input_state]).length - cap = 0 := by
            simp only [List.length_append, List.length_cons, List.length_nil]
            omega
          simp only [hz, List.drop_zero]
    have hget : (app.history.push (contentToCommandentry app.input_state)).get_at
        (app.history.len - 1) = some (app.history.entries.getD (app.history.len - 1) []) := by
      simp only [CommandList.get_at, hpush]
      rw [get_append_left _ _ _ hb]
      exact get_eq_some_getD [] _ _ hb
    simp only [applyHistoryPrev, h1, hget]
    rw [if_pos h3]
  · intro h1 h2 h3
    have hb : idx - 1 < app.history.entries.length := by
      simp only [CommandList.len] at h3
      omega
    have hget : app.history.get_at (idx - 1) =
        some (app.history.entries.getD (idx - 1) []) := by
      simp only [CommandList.get_at]
      exact get_eq_some_getD [] _ _ hb
    simp only [applyHistoryPrev, h1, hget]
    rw [if_pos h2]
  · intro h1
    simp only [applyHistoryPrev, h1]
    rw [if_neg (by omega)]

theorem C5_witness :
    applyHistoryPrev c5WitnessApp = some { c5WitnessApp with
      history_idx := some 1,
      history := c5WitnessApp.history.push (contentToCommandentry c5WitnessApp.input_state),
      input_state := loadCommandentry (c5WitnessApp.history.entries.getD 1 []) } :=
  (C5_amended_history_prev c5WitnessApp 0).1 (by decide)
    (by
      intro cap hc
      have hc' : (some 10 : Option Nat) = some cap := hc
      injection hc' with h
      subst h
      decide)
    (by decide)

/-- C6 counterexample: for buffer `aa` with cursor at the end and an
autocomplete overlay with query `aa` and selected candidate `aaaa` (which
begins with two copies of the query), acceptance inserts nothing - Rust
`trim_start_matches` strips the query repeatedly, leaving the content `aa` -
whereas stripping the query prefix once, as the claim states, leaves the
remainder `aa` whose insertion would give content `aaaa`. -/
theorem C6_counterexample :
    handleMainWindowTuiEvent noComplete c6App KeyCode.enter false =
      some { c6App with
             input_state := { lines := [['a', 'a']], cursor_row := 0, cursor_col := 2 },
             autocomplete_state := none } ∧
    stripQueryOnceSpec ['a', 'a'] ['a', 'a', 'a', 'a'] = ['a', 'a'] ∧
    ([['a', 'a']] : List Line) ≠ [['a', 'a', 'a', 'a']] := by
  decide

/-- C6 (amended): accepting an autocomplete candidate (Enter on the overlay)
inserts at the cursor the candidate with every leading repetition of the
original query stripped (Rust `trim_start_matches`); whenever the candidate
starts with the query but not with two copies of it, this equals stripping
the query prefix once, i.e. inserting only the remainder; concretely, for
buffer `ls /tm` with cursor at the end and single completion `/tmp`, both
the direct single-match Tab path and overlay acceptance append `p`, giving
final content `ls /tmp`. -/
theorem C6_amended_acceptance (complete : Line → Option (List Line)) (app : App)
    (ac : AutocompleteState) (hac : app.autocomplete_state = some ac)
    (hinv : BufferInv app.input_state)
    (hnl : '\n' ∉ trimStartMatches ac.original_prompt ac.selected) (ctrl : Bool) :
    handleMainWindowTuiEvent complete app KeyCode.enter ctrl =
      some (acceptAutocomplete app ac) ∧
    (acceptAutocomplete app ac).input_state.lines =
      app.input_state.lines.set app.input_state.cursor_row
        ((currentLine app.input_state).take app.input_state.cursor_col ++
          trimStartMatches ac.original_prompt ac.selected ++
          (currentLine app.input_state).drop app.input_state.cursor_col) ∧
    (acceptAutocomplete app ac).autocomplete_state = none ∧
    (ac.original_prompt.isPrefixOf ac.selected = true →
      ac.original_prompt.isPrefixOf (ac.selected.drop ac.original_prompt.length) = false →
      trimStartMatches ac.original_prompt ac.selected =
        ac.selected.drop ac.original_prompt.length ∧
      trimStartMatches ac.original_prompt ac.selected =
        stripQueryOnceSpec ac.original_prompt ac.selected) ∧
    (handleMainWindowTuiEvent tmOracle c6TabApp KeyCode.tab false).map
      (fun a => a.input_state.lines) = some [['l', 's', ' ', '/', 't', 'm', 'p']] ∧
    (handleMainWindowTuiEvent tmOracle c6EnterApp KeyCode.enter false).map
      (fun a => a.input_state.lines) = some [['l', 's', ' ', '/', 't', 'm', 'p']] := by
  have hs := insertAtCursor_single (trimStartMatches ac.original_prompt ac.selected)
    app.input_state hinv hnl
  refine ⟨?_, ?_, rfl, ?_, ?_, ?_⟩
  · simp only [handleMainWindowTuiEvent, hac]
  · simp only [acceptAutocomplete]
    rw [hs]
  · intro h1 h2
    refine ⟨trimStartMatches_single _ _ h1 h2, ?_⟩
    simp only [stripQueryOnceSpec]
    rw [if_pos h1]
    exact trimStartMatches_single _ _ h1 h2
  · decide
  · decide

theorem C6_witness :
    (handleMainWindowTuiEvent tmOracle c6TabApp KeyCode.tab false).map
      (fun a => a.input_state.lines) = some [['l', 's', ' ', '/', 't', 'm', 'p']] ∧
    (handleMainWindowTuiEvent tmOracle c6EnterApp KeyCode.enter false).map
      (fun a => a.input_state.lines) = some [['l', 's', ' ', '/', 't', 'm', 'p']] :=
  ⟨(C6_amended_acceptance noComplete c6EnterApp
      { original_prompt := ['/', 't', 'm'], options := [['/', 't', 'm', 'p']],
        current_idx := 0 }
      (by rfl) (by decide) (by decide) false).2.2.2.2.1,
   (C6_amended_acceptance noComplete c6EnterApp
      { original_prompt := ['/', 't', 'm'], options := [['/', 't', 'm', 'p']],
        current_idx := 0 }
      (by rfl) (by decide) (by decide) false).2.2.2.2.2⟩

theorem menu_handler_keeps_menu (app : App) (menu : KeySelectMenu) (c : Char) :
    (handleKeySelectMenuEvent app menu c).opened_key_select_menu =
      app.opened_key_select_menu := by
  rcases menu with ⟨opts, mt⟩
  cases mt with
  | snippets =>
      simp only [handleKeySelectMenuEvent]
      cases hl : app.config.snippets.lookup c <;> simp [hl]
  | openWordIn w =>
      simp only [handleKeySelectMenuEvent]
      cases hl : app.config.help_viewers.lookup c <;> simp [hl]

/-- C9: an open key-select menu is destroyed by exactly one subsequent
character keystroke: the dispatcher takes the menu out of the state and
hands the character to the menu handler, which never reopens a menu; a
mapping hit dispatches the mapped action (snippet insertion with the
declared cursor offset, or recording the resolved open-word-in-viewer
command), a miss dispatches nothing - either way the menu is closed and can
never receive a second keystroke. -/
theorem C9_key_select_menu_single_keystroke (complete : Line → Option (List Line))
    (app : App) (menu : KeySelectMenu) (c : Char) (ctrl : Bool)
    (hm : app.opened_key_select_menu = some menu)
    (hac : app.autocomplete_state = none) :
    handleMainWindowTuiEvent complete app (KeyCode.char c) ctrl =
      some (handleKeySelectMenuEvent { app with opened_key_select_menu := none } menu c) ∧
    (handleKeySelectMenuEvent { app with opened_key_select_menu := none }
      menu c).opened_key_select_menu = none ∧
    (menu.menu_type = KeySelectMenuType.snippets → app.config.snippets.lookup c = none →
      handleKeySelectMenuEvent { app with opened_key_select_menu := none } menu c =
        { app with opened_key_select_menu := none }) ∧
    (∀ w, menu.menu_type = KeySelectMenuType.openWordIn w →
      app.config.help_viewers.lookup c = none →
      handleKeySelectMenuEvent { app with opened_key_select_menu := none } menu c =
        { app with opened_key_select_menu := none }) ∧
    (∀ sn, menu.menu_type = KeySelectMenuType.snippets →
      app.config.snippets.lookup c = some sn →
      (handleKeySelectMenuEvent { app with opened_key_select_menu := none }
        menu c).input_state =
        { insertAtCursor sn.text app.input_state with
          cursor_col := (insertAtCursor sn.text app.input_state).cursor_col +
            sn.cursor_offset }) ∧
    (∀ w v, menu.menu_type = KeySelectMenuType.openWordIn w →
      app.config.help_viewers.lookup c = some v →
      (handleKeySelectMenuEvent { app with opened_key_select_menu := none }
        menu c).should_jump_to_other_cmd = some (resolveToCommand v w)) := by
  refine ⟨?_, ?_, ?_, ?_, ?_, ?_⟩
  · simp only [handleMainWindowTuiEvent, hac, mainWindowRest, hm]
  · rw [menu_handler_keeps_menu]
  · intro hmt hlu
    simp only [handleKeySelectMenuEvent, hmt, hlu]
  · intro w hmt hlu
    simp only [handleKeySelectMenuEvent, hmt, hlu]
  · intro sn hmt hlu
    simp only [handleKeySelectMenuEvent, hmt, hlu]
  · intro w v hmt hlu
    simp only [handleKeySelectMenuEvent, hmt, hlu]

theorem C9_witness :
    handleMainWindowTuiEvent noComplete c9App (KeyCode.char 'a') false =
      some (handleKeySelectMenuEvent { c9App with opened_key_select_menu := none }
        { options := [], menu_type := KeySelectMenuType.snippets } 'a') ∧
    (handleKeySelectMenuEvent { c9App with opened_key_select_menu := none }
      { options := [], menu_type := KeySelectMenuType.snippets }
      'a').opened_key_select_menu = none :=
  ⟨(C9_key_select_menu_single_keystroke noComplete c9App
      { options := [], menu_type := KeySelectMenuType.snippets } 'a' false
      (by rfl) (by rfl)).1,
   (C9_key_select_menu_single_keystroke noComplete c9App
      { options := [], menu_type := KeySelectMenuType.snippets } 'a' false
      (by rfl) (by rfl)).2.1⟩

/-- C10: when Enter is pressed in the main window with no overlay active,
the buffer content is always executed (its joined text is submitted to the
execution handler), and a history entry is pushed if and only if the joined
buffer content is non-empty: an empty buffer is executed without ever being
committed to history. -/
theorem C10_enter_history_iff_nonempty (complete : Line → Option (List Line))
    (app : App) (ctrl : Bool)
    (hac : app.autocomplete_state = none) (hm : app.opened_key_select_menu = none) :
    handleMainWindowTuiEvent complete app KeyCode.enter ctrl = some (enterAction app) ∧
    (contentStr app.input_state = [] →
      (enterAction app).history = app.history ∧
      (enterAction app).execRequests = app.execRequests ++ [contentStr app.input_state]) ∧
    (contentStr app.input_state ≠ [] →
      (enterAction app).history = app.history.push (contentToCommandentry app.input_state) ∧
      (enterAction app).execRequests = app.execRequests ++ [contentStr app.input_state]) := by
  refine ⟨?_, ?_, ?_⟩
  · simp only [handleMainWindowTuiEvent, hac, mainWindowRest, hm, mainMatch]
  · intro he
    simp only [enterAction, executeContent]
    rw [if_neg (fun hc => hc he)]
    exact ⟨rfl, rfl⟩
  · intro hne
    simp only [enterAction, executeContent]
    rw [if_pos hne]
    exact ⟨rfl, rfl⟩

theorem C10_witness :
    handleMainWindowTuiEvent noComplete c10App KeyCode.enter false =
      some (enterAction c10App) ∧
    (enterAction c10App).history =
      c10App.history.push (contentToCommandentry c10App.input_state) ∧
    (enterAction c10App).execRequests =
      c10App.execRequests ++ [contentStr c10App.input_state] := by
  have h := C10_enter_history_iff_nonempty noComplete c10App false (by rfl) (by rfl)
  exact ⟨h.1, (h.2.2 (by decide)).1, (h.2.2 (by decide)).2⟩
